import Mathlib

/-!
# Verification of the PMNEC concurrency demos

Shallow embedding of `src/prime_pool.py` and `src/04_parallel_demo.py`:
the primality workload functions, the bounded worker-pool result
collection, the lock-guarded counter demo and the producer/consumer
queue demo, together with theorems settling the specification claims.
-/

namespace PMNEC

/-- The trial-division loop of `is_prime`
(`for i in range(3, limit, 2): if n % i == 0: return False` followed by
`return True`), from `src/prime_pool.py` lines 13-17 and
`src/04_parallel_demo.py` lines 28-32.  `i` steps through
`i, i+2, i+4, ...` strictly below `limit`. -/
def trialDiv (n i limit : Nat) : Bool :=
  if i < limit then
    if n % i = 0 then false else trialDiv n (i + 2) limit
  else true
termination_by limit - i
decreasing_by omega

/-- The function `is_prime` from `src/prime_pool.py` lines 8-17 (identical in
`src/04_parallel_demo.py` lines 23-32).  In Python, `%` on a positive
modulus agrees with `Int.emod`; `int(math.sqrt(n))` is modelled as
`Nat.sqrt` (exact for all inputs the scripts use). -/
def is_prime (n : Int) : Bool :=
  if n < 2 then false
  else if n % 2 = 0 then decide (n = 2)
  else trialDiv n.toNat 3 (Nat.sqrt n.toNat + 1)

/-- The function `count_primes_up_to` from `src/prime_pool.py` lines 20-22
(`sum(1 for x in range(n) if is_prime(x))`; the `time.sleep` has no
effect on the value). -/
def count_primes_up_to (n : Nat) : Nat :=
  ((List.range n).filter fun x : Nat => is_prime (x : Int)).length

theorem trialDiv_true_iff (n : Nat) :
    ∀ fuel i limit, limit - i ≤ fuel →
      (trialDiv n i limit = true ↔
        ∀ k, i + 2 * k < limit → ¬ n % (i + 2 * k) = 0) := by
  intro fuel
  induction fuel with
  | zero =>
    intro i limit h
    rw [trialDiv]
    have hlim : ¬ i < limit := by omega
    rw [if_neg hlim]
    constructor
    · intro _ k hk
      omega
    · intro _
      trivial
  | succ m ih =>
    intro i limit h
    rw [trialDiv]
    by_cases hlim : i < limit
    · rw [if_pos hlim]
      by_cases hdiv : n % i = 0
      · rw [if_pos hdiv]
        constructor
        · intro hfalse
          exact absurd hfalse (by simp)
        · intro hall
          exact absurd hdiv (by
            have := hall 0 (by omega)
            simpa using this)
      · rw [if_neg hdiv]
        rw [ih (i + 2) limit (by omega)]
        constructor
        · intro hall k hk
          rcases k with _ | k
          · simpa using hdiv
          · have := hall k (by omega)
            have heq : i + 2 + 2 * k = i + 2 * (k + 1) := by ring
            rw [heq] at this
            exact this
        · intro hall k hk
          have := hall (k + 1) (by omega)
          have heq : i + 2 * (k + 1) = i + 2 + 2 * k := by ring
          rw [heq] at this
          exact this
    · rw [if_neg hlim]
      constructor
      · intro _ k hk
        omega
      · intro _
        trivial

/-- Helper: on natural-number inputs, `is_prime` decides `Nat.Prime`. -/
theorem is_prime_nat_iff (n : Nat) : is_prime (n : Int) = true ↔ n.Prime := by
  rw [is_prime]
  by_cases h2 : n < 2
  · rw [if_pos (by exact_mod_cast h2)]
    constructor
    · intro hfalse
      exact absurd hfalse (by simp)
    · intro hp
      exact absurd hp.two_le (by omega)
  · push_neg at h2
    have hlt : ¬ ((n : Int) < 2) := by exact_mod_cast not_lt.mpr h2
    rw [if_neg hlt]
    have hmod : (n : Int) % 2 = ((n % 2 : Nat) : Int) := by
      push_cast
      rfl
    by_cases heven : n % 2 = 0
    · rw [if_pos (by rw [hmod, heven]; rfl)]
      constructor
      · intro hd
        have hn2 : (n : Int) = 2 := by simpa using hd
        have : n = 2 := by exact_mod_cast hn2
        rw [this]
        exact Nat.prime_two
      · intro hp
        have : n = 2 := (Nat.Prime.even_iff hp).mp (Nat.even_iff.mpr heven)
        simp [this]
    · have hodd : n % 2 = 1 := by omega
      rw [if_neg (by rw [hmod, hodd]; exact one_ne_zero ∘ Int.ofNat.inj)]
      have htn : (n : Int).toNat = n := Int.toNat_natCast n
      rw [htn]
      rw [trialDiv_true_iff n (Nat.sqrt n + 1) 3 (Nat.sqrt n + 1) (by omega)]
      have h3 : 3 ≤ n := by omega
      constructor
      · intro hall
        by_contra hnp
        have hne1 : n ≠ 1 := by omega
        set m := Nat.minFac n with hm
        have hmp : m.Prime := Nat.minFac_prime hne1
        have hmdvd : m ∣ n := Nat.minFac_dvd n
        have hmn : m ≠ n := by
          intro heq
          exact hnp (heq ▸ hmp)
        have hq : n / m ∣ n := Nat.div_dvd_of_dvd hmdvd
        have hqne1 : n / m ≠ 1 := by
          intro heq
          have : n = m := by
            have := Nat.div_mul_cancel hmdvd
            rw [heq, one_mul] at this
            omega
          exact hmn this.symm
        have hqpos : 0 < n / m := Nat.div_pos (Nat.le_of_dvd (by omega) hmdvd)
          (Nat.pos_of_dvd_of_pos hmdvd (by omega))
        have hq2 : 2 ≤ n / m := by omega
        have hmle : m ≤ n / m := Nat.minFac_le_of_dvd hq2 hq
        have hsq : m * m ≤ n := by
          calc m * m ≤ m * (n / m) := Nat.mul_le_mul_left m hmle
          _ = n := Nat.mul_div_cancel' hmdvd
        have hmsqrt : m ≤ Nat.sqrt n := Nat.le_sqrt.mpr hsq
        have hmne2 : m ≠ 2 := by
          intro heq
          have : (2 : Nat) ∣ n := heq ▸ hmdvd
          omega
        have hm2 : 2 ≤ m := hmp.two_le
        have hmodd : m % 2 = 1 := by
          rcases Nat.mod_two_eq_zero_or_one m with h | h
          · exfalso
            have h2m : (2 : Nat) ∣ m := Nat.dvd_of_mod_eq_zero h
            have h2n : (2 : Nat) ∣ n := h2m.trans hmdvd
            omega
          · exact h
        have hm3 : 3 ≤ m := by omega
        have hk : m = 3 + 2 * ((m - 3) / 2) := by omega
        have := hall ((m - 3) / 2) (by omega)
        apply this
        rw [← hk]
        exact Nat.mod_eq_zero_of_dvd hmdvd
      · intro hp k hk
        intro hmod0
        have hdvd : (3 + 2 * k) ∣ n := Nat.dvd_of_mod_eq_zero hmod0
        have hlt' : 3 + 2 * k < n := by
          have hsqlt : Nat.sqrt n < n := Nat.sqrt_lt_self (by omega)
          omega
        exact (Nat.prime_def_lt'.mp hp).2 (3 + 2 * k) (by omega) hlt' hdvd

/-- Helper: on odd `n ≥ 3`, `is_prime` reduces to the trial-division loop. -/
theorem is_prime_odd_eq (n : Nat) (h3 : 3 ≤ n) (hodd : n % 2 = 1) :
    is_prime (n : Int) = trialDiv n 3 (Nat.sqrt n + 1) := by
  rw [is_prime]
  have hmod : (n : Int) % 2 = ((n % 2 : Nat) : Int) := by
    push_cast
    rfl
  rw [if_neg (by exact_mod_cast not_lt.mpr (by omega : 2 ≤ n))]
  rw [if_neg (by rw [hmod, hodd]; exact one_ne_zero ∘ Int.ofNat.inj)]
  rw [Int.toNat_natCast]

/-- C8: `is_prime(n)` returns `False` for every `n < 2`, `True` for
`n = 2`, `False` for every even `n > 2`; on odd `n ≥ 3` it returns
`True` exactly when `n` has no odd divisor `i` with `3 ≤ i ≤ sqrt n`;
and altogether it returns `True` iff `n` is a prime number. -/
theorem is_prime_correct :
    (∀ n : Int, n < 2 → is_prime n = false) ∧
    (is_prime 2 = true) ∧
    (∀ n : Int, 2 < n → n % 2 = 0 → is_prime n = false) ∧
    (∀ n : Nat, 3 ≤ n → n % 2 = 1 →
      (is_prime (n : Int) = true ↔
        ∀ i, 3 ≤ i → i % 2 = 1 → i ≤ Nat.sqrt n → ¬ i ∣ n)) ∧
    (∀ n : Nat, is_prime (n : Int) = true ↔ n.Prime) := by
  refine ⟨?_, ?_, ?_, ?_, is_prime_nat_iff⟩
  · intro n h
    rw [is_prime, if_pos h]
  · rfl
  · intro n h1 h2
    rw [is_prime, if_neg (by omega), if_pos h2]
    simp only [decide_eq_false_iff_not]
    omega
  · intro n h3 hodd
    rw [is_prime_odd_eq n h3 hodd]
    rw [trialDiv_true_iff n (Nat.sqrt n + 1) 3 (Nat.sqrt n + 1) (by omega)]
    constructor
    · intro hall i hi3 hiodd hisqrt hdvd
      have hik : i = 3 + 2 * ((i - 3) / 2) := by omega
      have := hall ((i - 3) / 2) (by omega)
      rw [← hik] at this
      exact this (Nat.mod_eq_zero_of_dvd hdvd)
    · intro hall k hk hmod0
      exact hall (3 + 2 * k) (by omega) (by omega) (by omega)
        (Nat.dvd_of_mod_eq_zero hmod0)

theorem is_prime_correct_witness :
    is_prime (-5) = false ∧ is_prime 10 = false ∧ is_prime 97 = true :=
  ⟨is_prime_correct.1 (-5) (by decide),
   is_prime_correct.2.2.1 10 (by decide) (by decide),
   (is_prime_correct.2.2.2.2 97).mpr (by norm_num)⟩

/-- C9: `count_primes_up_to(n)` returns the number of primes strictly
below `n` — the cardinality of the set of primes in `[0, n)`.  (As a
Lean function of `n` it is deterministic by construction, so two runs
on the same input give the same value.) -/
theorem count_primes_up_to_correct (n : Nat) :
    count_primes_up_to n = ((Finset.range n).filter (fun x => x.Prime)).card := by
  rw [count_primes_up_to, ← Nat.count_eq_card_filter_range, Nat.count,
    List.countP_eq_length_filter]
  have hfil : (List.range n).filter (fun x : Nat => is_prime (x : Int)) =
      (List.range n).filter (fun x : Nat => decide (Nat.Prime x)) := by
    apply List.filter_congr
    intro a _
    by_cases hp : a.Prime
    · rw [(is_prime_nat_iff a).mpr hp]
      simp [hp]
    · have hfalse : is_prime (a : Int) = false := by
        rcases Bool.eq_false_or_eq_true (is_prime (a : Int)) with h | h
        · exact absurd ((is_prime_nat_iff a).mp h) hp
        · exact h
      rw [hfalse]
      simp [hp]
  rw [hfil]

instance {ε β : Type} [DecidableEq ε] [DecidableEq β] : DecidableEq (Except ε β) :=
  fun x y =>
    match x, y with
    | Except.ok a, Except.ok b =>
      if h : a = b then isTrue (h ▸ rfl)
      else isFalse fun hc => h (Except.ok.inj hc)
    | Except.ok _, Except.error _ => isFalse fun hc => Except.noConfusion hc
    | Except.error _, Except.ok _ => isFalse fun hc => Except.noConfusion hc
    | Except.error a, Except.error b =>
      if h : a = b then isTrue (h ▸ rfl)
      else isFalse fun hc => h (Except.error.inj hc)

/-- Modelled from the spec: the TaskError of section 7, raised by the
pool library (not part of src/) when the function of a work item fails.  It
carries the originating index, the original input and the underlying
cause. -/
structure TaskError (α ε : Type) where
  idx : Nat
  input : α
  err : ε
deriving DecidableEq

/-- The tagged outcomes of `pool.map(worker_fn, inputs)`: the pool
applies the (possibly failing) worker function once to each input,
each work item tagged with its original index
(`src/prime_pool.py` line 32, `src/04_parallel_demo.py` line 44). -/
def outcomes {α β ε : Type} (f : α → Except ε β) (inputs : List α) :
    List (Nat × Except ε β) :=
  (inputs.map f).enum

/-- A worker function that never fails, as in the demos
(`count_primes_up_to` raises nothing), lifted to the fallible type. -/
def liftWorker {α β ε : Type} (f : α → β) (a : α) : Except ε β :=
  Except.ok (f a)

/-- Look up the recorded outcome of work item `i` in the completion
list (the reassembly-by-original-index of the pool). -/
def fetch {β ε : Type} (completed : List (Nat × Except ε β)) (i : Nat) :
    Option (Except ε β) :=
  (completed.find? fun p => p.fst == i).map Prod.snd

/-- Modelled from the spec: retrieval of `list(pool.map(...))`: walk
the work items in original-index order, collecting each recorded
result; the first recorded failure (hence the failure of smallest
original index) is surfaced as the overall failure and no result list
is produced.  `none` signals a missing outcome, which cannot happen
when the completion list covers all work items. -/
def collectFrom {α β ε : Type} (completed : List (Nat × Except ε β)) :
    List (Nat × α) → Option (Except (TaskError α ε) (List β))
  | [] => some (Except.ok [])
  | (i, a) :: rest =>
    match fetch completed i with
    | some (Except.ok b) =>
      (collectFrom completed rest).map fun r => r.map fun bs => b :: bs
    | some (Except.error e) => some (Except.error ⟨i, a, e⟩)
    | none => none

/-- Modelled from the spec: a whole pool run, given the completion
list produced by the workers in an arbitrary completion order: the
caller retrieves the results in original input order. -/
def poolRun {α β ε : Type} (completed : List (Nat × Except ε β))
    (inputs : List α) : Option (Except (TaskError α ε) (List β)) :=
  collectFrom completed inputs.enum

/-- The number of worker-function invocations a pool run performs:
one per work item. -/
def invocationCount {α β ε : Type} (f : α → Except ε β) (inputs : List α) : Nat :=
  (outcomes f inputs).length

/-- Helper: in a list of index-tagged outcomes with pairwise-distinct
indices, `find?` by index returns the unique entry with that index. -/
theorem find_unique_key {γ : Type} (l : List (Nat × γ))
    (hnd : (l.map Prod.fst).Nodup) (i : Nat) (c : γ) (hmem : (i, c) ∈ l) :
    l.find? (fun p => p.fst == i) = some (i, c) := by
  induction l with
  | nil => cases hmem
  | cons hd tl ih =>
    obtain ⟨j, c'⟩ := hd
    simp only [List.map_cons, List.nodup_cons] at hnd
    by_cases hji : j = i
    · subst hji
      have hdc : c' = c := by
        rcases List.mem_cons.mp hmem with h | h
        · exact (Prod.mk.injEq _ _ _ _ ▸ h.symm).2.symm ▸ rfl
        · exact absurd (List.mem_map.mpr ⟨(j, c), h, rfl⟩) hnd.1
      subst hdc
      rw [List.find?_cons_of_pos _ (by simp)]
    · rw [List.find?_cons_of_neg _ (by simp [hji])]
      apply ih hnd.2
      rcases List.mem_cons.mp hmem with h | h
      · exact absurd (congrArg Prod.fst h.symm) hji
      · exact h

/-- Helper: the completion list of a pool run, being a permutation of
the tagged outcomes, yields the outcome of item `i` under `fetch`. -/
theorem fetch_of_perm {α β ε : Type} (f : α → Except ε β) (inputs : List α)
    (completed : List (Nat × Except ε β))
    (hperm : completed.Perm (outcomes f inputs))
    (i : Nat) (a : α) (ha : inputs.get? i = some a) :
    fetch completed i = some (f a) := by
  have hmem : (i, f a) ∈ outcomes f inputs := by
    apply List.mk_mem_enum_iff_getElem?.mpr
    rw [List.getElem?_map, ← List.get?_eq_getElem?, ha]
    rfl
  have hmem' : (i, f a) ∈ completed := hperm.mem_iff.mpr hmem
  have hnd : (completed.map Prod.fst).Nodup := by
    have hpf : (completed.map Prod.fst).Perm ((outcomes f inputs).map Prod.fst) :=
      hperm.map Prod.fst
    rw [hpf.nodup_iff]
    rw [outcomes, List.enum_map_fst]
    exact List.nodup_range _
  rw [fetch, find_unique_key completed hnd i (f a) hmem']
  rfl

/-- Helper: when every listed work item has a recorded successful
outcome, collection succeeds and returns the mapped results in listed
order. -/
theorem collectFrom_all_ok {α β ε : Type} (completed : List (Nat × Except ε β))
    (g : Nat × α → β) :
    ∀ tagged : List (Nat × α),
      (∀ p ∈ tagged, fetch completed p.fst = some (Except.ok (g p))) →
      collectFrom completed tagged = some (Except.ok (tagged.map g)) := by
  intro tagged
  induction tagged with
  | nil => intro _; rfl
  | cons hd tl ih =>
    intro hall
    obtain ⟨i, a⟩ := hd
    rw [collectFrom]
    rw [hall (i, a) (List.mem_cons_self _ _)]
    rw [ih fun p hp => hall p (List.mem_cons_of_mem _ hp)]
    rfl

/-- Helper: collection surfaces the recorded failure of the first
listed work item whose outcome is a failure, with its index and input. -/
theorem collectFrom_first_error {α β ε : Type}
    (completed : List (Nat × Except ε β)) (k : Nat) (a : α) (e : ε)
    (hke : fetch completed k = some (Except.error e)) :
    ∀ (pre : List (Nat × α)) (post : List (Nat × α)),
      (∀ p ∈ pre, ∃ b, fetch completed p.fst = some (Except.ok b)) →
      collectFrom completed (pre ++ (k, a) :: post) =
        some (Except.error ⟨k, a, e⟩) := by
  intro pre
  induction pre with
  | nil =>
    intro post _
    rw [List.nil_append, collectFrom, hke]
  | cons hd tl ih =>
    intro post hall
    obtain ⟨i, a'⟩ := hd
    obtain ⟨b, hb⟩ := hall (i, a') (List.mem_cons_self _ _)
    rw [List.cons_append, collectFrom, hb,
      ih post fun p hp => hall p (List.mem_cons_of_mem _ hp)]
    rfl

/-- C1: for a non-empty input sequence of length `L` and any worker
count `W` with `1 ≤ W ≤ L`, a pool run over any completion order (any
permutation of the index-tagged outcomes, the workers never failing)
returns exactly the results in original input order: a sequence of
length `L` whose `i`-th element is `worker_fn(input[i])`, regardless
of completion order. -/
theorem pool_ordered_results {α β : Type} (g : α → β) (inputs : List α)
    (completed : List (Nat × Except Unit β)) (W : Nat)
    (hW1 : 1 ≤ W) (hWL : W ≤ inputs.length)
    (hperm : completed.Perm (outcomes (liftWorker g) inputs)) :
    poolRun completed inputs = some (Except.ok (inputs.map g)) ∧
    (inputs.map g).length = inputs.length ∧
    ∀ i : Nat, (inputs.map g)[i]? = (inputs[i]?).map g := by
  refine ⟨?_, List.length_map _ _, fun i => List.getElem?_map g inputs i⟩
  rw [poolRun]
  have hall : ∀ p ∈ inputs.enum,
      fetch completed p.fst = some (Except.ok (g p.snd)) := by
    intro p hp
    obtain ⟨i, a⟩ := p
    have ha : inputs.get? i = some a := by
      rw [List.get?_eq_getElem?]
      exact List.mk_mem_enum_iff_getElem?.mp hp
    exact fetch_of_perm (liftWorker g) inputs completed hperm i a ha
  rw [collectFrom_all_ok completed (fun p => g p.snd) inputs.enum hall]
  have hmap : inputs.enum.map (fun p => g p.snd) = inputs.map g := by
    have : (fun p : Nat × α => g p.snd) = g ∘ Prod.snd := rfl
    rw [this, ← List.map_map, List.enum_map_snd]
  rw [hmap]

theorem pool_ordered_results_witness :
    poolRun [((2 : Nat), (Except.ok 9 : Except Unit Nat)), (0, Except.ok 1),
        (1, Except.ok 4)] [1, 2, 3] =
      some (Except.ok ([1, 4, 9] : List Nat)) :=
  (pool_ordered_results (fun x : Nat => x * x) [1, 2, 3]
    [((2 : Nat), (Except.ok 9 : Except Unit Nat)), (0, Except.ok 1), (1, Except.ok 4)]
    2 (by decide) (by decide) (by decide)).1

/-- C2: when the worker function fails on the input of original index
`k` and succeeds on every input of smaller index (in particular when
`k` is the only failing index), the pool run surfaces — for any
completion order — a single failure carrying index `k`, the original
input and the underlying error, and returns no result sequence. -/
theorem pool_first_failure {α β ε : Type} (f : α → Except ε β) (inputs : List α)
    (completed : List (Nat × Except ε β)) (k : Nat) (e : ε)
    (hperm : completed.Perm (outcomes f inputs))
    (hk : k < inputs.length)
    (herr : f (inputs.get ⟨k, hk⟩) = Except.error e)
    (hok : ∀ j, j < k → ∀ a, inputs.get? j = some a → ∃ b, f a = Except.ok b) :
    poolRun completed inputs =
      some (Except.error ⟨k, inputs.get ⟨k, hk⟩, e⟩) := by
  have hklen : k < inputs.enum.length := by
    rw [List.enum_length]
    exact hk
  have hsplit : inputs.enum =
      inputs.enum.take k ++ (k, inputs.get ⟨k, hk⟩) :: inputs.enum.drop (k + 1) := by
    conv_lhs => rw [← List.take_append_drop k inputs.enum]
    congr 1
    rw [List.drop_eq_getElem_cons hklen]
    congr 1
    rw [List.getElem_enum]
    rfl
  rw [poolRun, hsplit]
  apply collectFrom_first_error
  · have ha : inputs.get? k = some (inputs.get ⟨k, hk⟩) := by
      rw [List.get?_eq_getElem?, List.getElem?_eq_getElem hk]
      rfl
    rw [fetch_of_perm f inputs completed hperm k (inputs.get ⟨k, hk⟩) ha, herr]
  · intro p hp
    obtain ⟨p1, p2⟩ := p
    obtain ⟨i, hilen, hgeteq⟩ := List.mem_iff_getElem.mp hp
    have hik : i < k := by
      have := hilen
      rw [List.length_take] at this
      omega
    have hienum : i < inputs.enum.length := by
      rw [List.length_take] at hilen
      omega
    have hil : i < inputs.length := by
      rw [List.enum_length] at hienum
      exact hienum
    rw [List.getElem_take] at hgeteq
    rw [List.getElem_enum] at hgeteq
    injection hgeteq with h1 h2
    subst h1
    subst h2
    obtain ⟨b, hb⟩ := hok i hik inputs[i] (by
      rw [List.get?_eq_getElem?, List.getElem?_eq_getElem hil])
    refine ⟨b, ?_⟩
    have hai : inputs.get? i = some inputs[i] := by
      rw [List.get?_eq_getElem?, List.getElem?_eq_getElem hil]
    rw [fetch_of_perm f inputs completed hperm i inputs[i] hai, hb]

theorem pool_first_failure_witness :
    poolRun [((1 : Nat), (Except.error 11 : Except Nat Nat)), (2, Except.ok 24),
        (0, Except.ok 20)] [10, 11, 12] =
      some (Except.error ⟨1, 11, 11⟩) :=
  pool_first_failure
    (fun a => if a % 2 = 1 then Except.error a else Except.ok (2 * a))
    [10, 11, 12]
    [((1 : Nat), (Except.error 11 : Except Nat Nat)), (2, Except.ok 24), (0, Except.ok 20)]
    1 11 (by decide) (by decide : (1 : Nat) < ([10, 11, 12] : List Nat).length)
    (by decide)
    (by
      intro j hj a ha
      have hj0 : j = 0 := by omega
      subst hj0
      have ha10 : a = 10 := by
        have h10 : ([10, 11, 12] : List Nat).get? 0 = some 10 := rfl
        rw [h10] at ha
        exact (Option.some.inj ha).symm
      subst ha10
      exact ⟨20, rfl⟩)

/-- C6: a pool run on the empty input sequence returns the empty
result sequence, and the worker function is invoked zero times (there
are zero tagged work items). -/
theorem pool_empty_input {α β ε : Type} (f : α → Except ε β)
    (completed : List (Nat × Except ε β)) :
    poolRun completed ([] : List α) = some (Except.ok ([] : List β)) ∧
    invocationCount f ([] : List α) = 0 :=
  ⟨rfl, rfl⟩

/-- Modelled from the spec: the scheduler state of a bounded pool
(`ThreadPoolExecutor` / `ProcessPoolExecutor` with `max_workers = W`,
`src/04_parallel_demo.py` lines 16 and 43, `src/prime_pool.py`
line 31): indices of work items not yet started, currently executing
(a worker is inside `worker_fn`), and finished. -/
structure PoolState where
  pending : List Nat
  inFlight : List Nat
  done : List Nat
deriving DecidableEq

/-- Initial scheduler state for `L` work items: all pending. -/
def poolStart (L : Nat) : PoolState :=
  ⟨List.range L, [], []⟩

/-- Modelled from the spec: one scheduler transition of a pool with
`W` workers.  A pending item may start only while fewer than `W`
items are in flight (a worker must be free); an in-flight item may
finish at any time. -/
inductive PoolStep (W : Nat) : PoolState → PoolState → Prop
  | start {s : PoolState} (i : Nat) (rest : List Nat)
      (hp : s.pending = i :: rest) (hcap : s.inFlight.length < W) :
      PoolStep W s ⟨rest, i :: s.inFlight, s.done⟩
  | finish {s : PoolState} (i : Nat) (hmem : i ∈ s.inFlight) :
      PoolStep W s ⟨s.pending, s.inFlight.erase i, s.done ++ [i]⟩

/-- C3: in every state reachable during a pool run over any input
sequence of length `L` with worker count `W`, at most `W` invocations
of the worker function are executing concurrently: the number of
in-flight work items never exceeds `W`, however large `L` is. -/
theorem pool_bounded_concurrency (W L : Nat) (s : PoolState)
    (hreach : Relation.ReflTransGen (PoolStep W) (poolStart L) s) :
    s.inFlight.length ≤ W := by
  induction hreach with
  | refl => exact Nat.zero_le W
  | @tail b c hab hbc ih =>
    cases hbc with
    | start i rest hp hcap =>
      simpa using hcap
    | finish i hmem =>
      calc (b.inFlight.erase i).length ≤ b.inFlight.length :=
            List.length_erase_le i b.inFlight
        _ ≤ W := ih

theorem pool_bounded_concurrency_witness :
    (PoolState.mk [1, 2, 3, 4] [0] []).inFlight.length ≤ 2 :=
  pool_bounded_concurrency 2 5 (PoolState.mk [1, 2, 3, 4] [0] [])
    (Relation.ReflTransGen.single
      (PoolStep.start 0 [1, 2, 3, 4] (by decide) (by decide)))

/-- State of the shared-counter demo (`src/04_parallel_demo.py`
lines 52-71): the shared counter together with the number of
increments each of the `T` threads still has to perform. -/
structure CounterState where
  counter : Nat
  rem : List Nat
deriving DecidableEq

/-- Initial state of `run_thread_lock_demo` generalised to `T`
threads of `N` increments each: counter `0`, every thread with `N`
increments to go. -/
def counterStart (T N : Nat) : CounterState :=
  ⟨0, List.replicate T N⟩

/-- One lock-guarded increment of `add_many`
(`with counter_lock: counter += 1`): the lock serializes the whole
read-modify-write, so any thread `w` with increments left performs
one atomic `counter += 1`. -/
inductive CounterStep : CounterState → CounterState → Prop
  | inc {s : CounterState} (w : Nat) (hw : w < s.rem.length)
      (hpos : 0 < s.rem.get ⟨w, hw⟩) :
      CounterStep s ⟨s.counter + 1, s.rem.set w (s.rem.get ⟨w, hw⟩ - 1)⟩

/-- Helper: setting one entry of a list of naturals changes the sum
by the difference. -/
theorem sum_set_get (l : List Nat) :
    ∀ (w : Nat) (hw : w < l.length) (a : Nat),
      (l.set w a).sum + l.get ⟨w, hw⟩ = l.sum + a := by
  induction l with
  | nil =>
    intro w hw a
    exact absurd hw (by simp)
  | cons hd tl ih =>
    intro w hw a
    cases w with
    | zero =>
      simp [List.set]
      omega
    | succ w' =>
      have hw' : w' < tl.length := by simpa using hw
      have := ih w' hw' a
      simp only [List.set, List.sum_cons, List.get]
      omega

/-- Helper: every reachable state of the counter demo keeps
`counter + outstanding increments` constant. -/
theorem counter_invariant (T N : Nat) (s : CounterState)
    (hreach : Relation.ReflTransGen CounterStep (counterStart T N) s) :
    s.counter + s.rem.sum = T * N := by
  induction hreach with
  | refl =>
    simp [counterStart, List.sum_replicate]
  | @tail b c hab hbc ih =>
    cases hbc with
    | inc w hw hpos =>
      have hsum := sum_set_get b.rem w hw (b.rem.get ⟨w, hw⟩ - 1)
      simp only
      omega

/-- Helper: a counter step is preserved under adding one more thread
in front of the remaining-increments list. -/
theorem counterStep_cons (x : Nat) {s t : CounterState} (h : CounterStep s t) :
    CounterStep ⟨s.counter, x :: s.rem⟩ ⟨t.counter, x :: t.rem⟩ := by
  cases h with
  | inc w hw hpos =>
    exact CounterStep.inc (s := ⟨_, x :: _⟩) (w + 1) (Nat.succ_lt_succ hw) hpos

/-- Helper: reachability is preserved under adding one more thread in
front of the remaining-increments list. -/
theorem counterReach_cons (x : Nat) {s t : CounterState}
    (h : Relation.ReflTransGen CounterStep s t) :
    Relation.ReflTransGen CounterStep ⟨s.counter, x :: s.rem⟩ ⟨t.counter, x :: t.rem⟩ := by
  induction h with
  | refl => exact Relation.ReflTransGen.refl
  | @tail b c hab hbc ih =>
    exact Relation.ReflTransGen.tail ih (counterStep_cons x hbc)

/-- Helper: the first thread can run all its `k` increments. -/
theorem counterDrainHead (k : Nat) : ∀ (c : Nat) (rest : List Nat),
    Relation.ReflTransGen CounterStep ⟨c, k :: rest⟩ ⟨c + k, 0 :: rest⟩ := by
  induction k with
  | zero =>
    intro c rest
    exact Relation.ReflTransGen.refl
  | succ k ih =>
    intro c rest
    apply Relation.ReflTransGen.head
      (CounterStep.inc (s := ⟨c, (k + 1) :: rest⟩) 0 (Nat.succ_pos _) (Nat.succ_pos k))
    have h := ih (c + 1) rest
    have heq : c + 1 + k = c + (k + 1) := by omega
    rw [heq] at h
    exact h

/-- Helper: all threads can run all their increments, one thread at a
time. -/
theorem counterDrainAll : ∀ (rem : List Nat) (c : Nat),
    Relation.ReflTransGen CounterStep ⟨c, rem⟩
      ⟨c + rem.sum, List.replicate rem.length 0⟩ := by
  intro rem
  induction rem with
  | nil =>
    intro c
    exact Relation.ReflTransGen.refl
  | cons k rest ih =>
    intro c
    have h1 := counterDrainHead k c rest
    have h2 := counterReach_cons 0 (ih (c + k))
    have h3 := Relation.ReflTransGen.trans h1 h2
    have heq : c + (k :: rest).sum = c + k + rest.sum := by
      rw [List.sum_cons]
      omega
    rw [heq]
    exact h3

/-- Helper: the full demo run is reachable: every thread performs all
its increments and the final state is terminal. -/
theorem counterRunsToFinal (T N : Nat) :
    Relation.ReflTransGen CounterStep (counterStart T N)
      ⟨T * N, List.replicate T 0⟩ := by
  have h := counterDrainAll (List.replicate T N) 0
  rw [List.sum_replicate, smul_eq_mul, List.length_replicate, Nat.zero_add] at h
  exact h

/-- C4: whenever `T ≥ 1` threads each perform `N ≥ 1` lock-guarded
increments and every interleaving serializes each increment through
the lock (each read-modify-write is one atomic step), every terminal
reachable state (no increments left) has counter exactly `T × N`; in
particular `run_thread_lock_demo` (`T = 5`, `N = 100000`) ends with
counter exactly `500000`. -/
theorem counter_final_exact :
    (∀ T N : Nat, 1 ≤ T → 1 ≤ N → ∀ s : CounterState,
      Relation.ReflTransGen CounterStep (counterStart T N) s →
      (∀ x ∈ s.rem, x = 0) → s.counter = T * N) ∧
    (∀ s : CounterState,
      Relation.ReflTransGen CounterStep (counterStart 5 100000) s →
      (∀ x ∈ s.rem, x = 0) → s.counter = 500000) := by
  have hmain : ∀ T N : Nat, ∀ s : CounterState,
      Relation.ReflTransGen CounterStep (counterStart T N) s →
      (∀ x ∈ s.rem, x = 0) → s.counter = T * N := by
    intro T N s hreach hdone
    have hinv := counter_invariant T N s hreach
    have hz : s.rem.sum = 0 := List.sum_eq_zero hdone
    omega
  refine ⟨fun T N _ _ => hmain T N, fun s h hd => ?_⟩
  have := hmain 5 100000 s h hd
  omega

theorem counter_final_exact_witness :
    (CounterState.mk 1 [0]).counter = 1 * 1 ∧
    (CounterState.mk 500000 (List.replicate 5 0)).counter = 500000 := by
  constructor
  · exact counter_final_exact.1 1 1 (by decide) (by decide) (CounterState.mk 1 [0])
      (counterRunsToFinal 1 1) (by decide)
  · exact counter_final_exact.2 (CounterState.mk 500000 (List.replicate 5 0))
      (counterRunsToFinal 5 100000) (by decide)

/-- State of the producer/consumer queue demo
(`src/04_parallel_demo.py` lines 75-101): the tasks still in the
queue, the tasks some worker has taken via `get_nowait` but not yet
recorded (the worker is between `get_nowait` and `results.append`),
and the recorded `(worker, task)` results. -/
structure QueueState (τ : Type) where
  queue : List τ
  hand : Multiset τ
  results : List (Nat × τ)

/-- Initial state of `run_queue_demo` generalised to an arbitrary
pre-loaded task list: nothing taken, no results. -/
def queueStart {τ : Type} (tasks : List τ) : QueueState τ :=
  ⟨tasks, 0, []⟩

/-- One transition of the queue demo: a worker atomically pops the
head of the queue (`q.get_nowait()`, which never delivers an item
twice), or a worker appends a held task to the results list
(`results.append((name, item))`).  Worker identities are arbitrary
numeric tags (the demo spawns three workers). -/
inductive QueueStep {τ : Type} [DecidableEq τ] : QueueState τ → QueueState τ → Prop
  | take {s : QueueState τ} (t : τ) (rest : List τ) (hq : s.queue = t :: rest) :
      QueueStep s ⟨rest, t ::ₘ s.hand, s.results⟩
  | record {s : QueueState τ} (w : Nat) (t : τ) (ht : t ∈ s.hand) :
      QueueStep s ⟨s.queue, s.hand.erase t, s.results ++ [(w, t)]⟩

/-- Helper: in every reachable state of the queue demo, the recorded
tasks, the tasks held by workers and the tasks still queued together
form exactly the initial task multiset. -/
theorem queue_invariant {τ : Type} [DecidableEq τ] (tasks : List τ)
    (s : QueueState τ)
    (hreach : Relation.ReflTransGen QueueStep (queueStart tasks) s) :
    (↑(s.results.map Prod.snd) : Multiset τ) + s.hand + ↑s.queue = ↑tasks := by
  induction hreach with
  | refl => simp [queueStart]
  | @tail b c hab hbc ih =>
    cases hbc with
    | take t rest hq =>
      rw [← ih, hq]
      rw [← Multiset.cons_coe]
      simp only [Multiset.add_cons, Multiset.cons_add]
    | record w t ht =>
      rw [← ih]
      conv_rhs => rw [← Multiset.cons_erase ht]
      simp only [List.map_append, List.map_cons, List.map_nil]
      have hcoe : (↑(List.map Prod.snd b.results ++ [t]) : Multiset τ) =
          ↑(List.map Prod.snd b.results) + (t ::ₘ 0) := rfl
      rw [hcoe]
      simp only [Multiset.add_cons, Multiset.cons_add, add_zero]

/-- C5: every execution of the queue demo that ends with the queue
drained and no task still held by a worker has processed every
enqueued task exactly once: the multiset of tasks in the collected
`(worker, task)` results equals the multiset of enqueued tasks, and
when the enqueued tasks are pairwise distinct (as `task-0 ..task-4`
are) the collected tasks have no duplicates and no omissions. -/
theorem queue_tasks_exactly_once {τ : Type} [DecidableEq τ] (tasks : List τ)
    (s : QueueState τ)
    (hreach : Relation.ReflTransGen QueueStep (queueStart tasks) s)
    (hq : s.queue = []) (hh : s.hand = 0) :
    (↑(s.results.map Prod.snd) : Multiset τ) = ↑tasks ∧
    (tasks.Nodup → (s.results.map Prod.snd).Nodup) := by
  have hinv := queue_invariant tasks s hreach
  rw [hq, hh] at hinv
  simp only [Multiset.coe_nil, add_zero] at hinv
  refine ⟨hinv, fun hnd => ?_⟩
  have hperm : (s.results.map Prod.snd).Perm tasks := Multiset.coe_eq_coe.mp hinv
  exact hperm.nodup_iff.mpr hnd

/-- Helper: a single worker `w` can drain the whole queue, taking and
recording one task at a time. -/
theorem queueDrain {τ : Type} [DecidableEq τ] (w : Nat) :
    ∀ (q : List τ) (res : List (Nat × τ)),
      Relation.ReflTransGen QueueStep ⟨q, 0, res⟩
        ⟨[], 0, res ++ q.map fun t => (w, t)⟩ := by
  intro q
  induction q with
  | nil =>
    intro res
    rw [List.map_nil, List.append_nil]
  | cons t rest ih =>
    intro res
    apply Relation.ReflTransGen.head
      (QueueStep.take (s := ⟨t :: rest, 0, res⟩) t rest rfl)
    apply Relation.ReflTransGen.head
      (QueueStep.record (s := ⟨rest, t ::ₘ 0, res⟩) w t (Multiset.mem_cons_self t 0))
    have herase : (t ::ₘ (0 : Multiset τ)).erase t = 0 := by simp
    rw [herase]
    have h := ih (res ++ [(w, t)])
    have happ : (res ++ [(w, t)]) ++ rest.map (fun t => (w, t)) =
        res ++ (t :: rest).map fun t => (w, t) := by
      simp
    rw [happ] at h
    exact h

theorem queue_tasks_exactly_once_witness :
    ((([(0, 0), (0, 1), (0, 2), (0, 3), (0, 4)] : List (Nat × Nat)).map Prod.snd :
        List Nat) : Multiset Nat) = (([0, 1, 2, 3, 4] : List Nat) : Multiset Nat) ∧
    (([0, 1, 2, 3, 4] : List Nat).Nodup →
      (([(0, 0), (0, 1), (0, 2), (0, 3), (0, 4)] : List (Nat × Nat)).map Prod.snd).Nodup) :=
  queue_tasks_exactly_once [0, 1, 2, 3, 4]
    (QueueState.mk [] 0 [(0, 0), (0, 1), (0, 2), (0, 3), (0, 4)])
    (queueDrain 0 [0, 1, 2, 3, 4] []) rfl rfl

/-- The Python expression `a or b` on optional integers: `a` when `a` is truthy
(not `None` and not `0`), else `b`. -/
def pyOr (a b : Option Int) : Option Int :=
  match a with
  | some x => if x = 0 then b else some x
  | none => b

/-- The assignment `workers = workers or os.cpu_count()` from
`src/04_parallel_demo.py` line 39.  `cpu` is what `os.cpu_count()`
returns (`None` when the host cannot determine it). -/
def resolveProcessWorkers (workers : Option Int) (cpu : Option Nat) : Option Int :=
  pyOr workers (cpu.map fun c => (c : Int))

/-- The assignment `workers = workers or os.cpu_count() or 2` from
`src/prime_pool.py` line 26 (the Python `or` associates left). -/
def resolvePrimeWorkers (workers : Option Int) (cpu : Option Nat) : Option Int :=
  pyOr (pyOr workers (cpu.map fun c => (c : Int))) (some 2)

/-- C7: with no caller-supplied worker count, `run_process_pool`
resolves it to `os.cpu_count()` and `run_prime_pool` resolves it to
`os.cpu_count()` with fallback `2` when that is unavailable; whenever
`os.cpu_count()` reports a positive count (as the OS guarantees), the
resolved worker count is at least `1` — for `run_prime_pool`
unconditionally so. -/
theorem default_worker_count (cpu : Option Nat) (hcpu : ∀ c ∈ cpu, 1 ≤ c) :
    resolveProcessWorkers none cpu = cpu.map (fun c => (c : Int)) ∧
    resolvePrimeWorkers none cpu = some ((cpu.getD 2 : Nat) : Int) ∧
    (∀ k, resolvePrimeWorkers none cpu = some k → 1 ≤ k) ∧
    (∀ c, cpu = some c →
      resolveProcessWorkers none cpu = some (c : Int) ∧ 1 ≤ (c : Int)) := by
  cases cpu with
  | none =>
    refine ⟨rfl, rfl, ?_, ?_⟩
    · intro k hk
      rw [show resolvePrimeWorkers none none = some 2 from rfl] at hk
      have h2 : (2 : Int) = k := Option.some.inj hk
      omega
    · intro c hc
      cases hc
  | some c =>
    have hc1 : 1 ≤ c := hcpu c rfl
    have hcz : ¬ ((c : Int) = 0) := by
      intro h
      omega
    constructor
    · rfl
    constructor
    · show pyOr (pyOr none (some (c : Int))) (some 2) = some ((c : Nat) : Int)
      show pyOr (some (c : Int)) (some 2) = some ((c : Nat) : Int)
      rw [pyOr, if_neg hcz]
    constructor
    · intro k hk
      have : pyOr (some (c : Int)) (some 2) = some k := hk
      rw [pyOr, if_neg hcz] at this
      have : (c : Int) = k := Option.some.inj this
      omega
    · intro c' hc'
      have hcc : c' = c := (Option.some.inj hc').symm
      subst hcc
      exact ⟨rfl, by omega⟩

theorem default_worker_count_witness :
    resolveProcessWorkers none (some 4) = some 4 ∧
    resolvePrimeWorkers none (some 4) = some 4 ∧
    resolvePrimeWorkers none none = some 2 := by
  have h4 := default_worker_count (some 4) (by decide)
  have hn := default_worker_count none (by simp)
  exact ⟨(h4.2.2.2 4 rfl).1, h4.2.1, hn.2.1⟩

/-- C10: passing `workers = 0` raises no error and does not run the
pool with zero workers: the truthiness-based default
(`workers or ...`) silently replaces `0` by the host default, exactly
as if the caller had passed `None`; in particular `run_prime_pool`
never resolves to `0` workers, and neither does `run_process_pool`
whenever `os.cpu_count()` reports a positive count. -/
theorem zero_workers_get_default (cpu : Option Nat) :
    resolveProcessWorkers (some 0) cpu = resolveProcessWorkers none cpu ∧
    resolvePrimeWorkers (some 0) cpu = resolvePrimeWorkers none cpu ∧
    (∀ k, resolvePrimeWorkers (some 0) cpu = some k → k ≠ 0) ∧
    (∀ c, cpu = some c → 1 ≤ c →
      ∀ k, resolveProcessWorkers (some 0) cpu = some k → 1 ≤ k) := by
  have hz : pyOr (some 0) (cpu.map fun c => (c : Int)) =
      pyOr none (cpu.map fun c => (c : Int)) := by
    rw [pyOr, if_pos rfl]
    rfl
  refine ⟨?_, ?_, ?_, ?_⟩
  · show pyOr (some 0) (cpu.map fun c => (c : Int)) =
      pyOr none (cpu.map fun c => (c : Int))
    exact hz
  · show pyOr (pyOr (some 0) (cpu.map fun c => (c : Int))) (some 2) =
      pyOr (pyOr none (cpu.map fun c => (c : Int))) (some 2)
    rw [hz]
  · intro k hk
    cases cpu with
    | none =>
      have : some (2 : Int) = some k := hk
      have h2 : (2 : Int) = k := Option.some.inj this
      omega
    | some c =>
      by_cases hc : (c : Int) = 0
      · have : resolvePrimeWorkers (some 0) (some c) = some 2 := by
          show pyOr (pyOr (some 0) (some (c : Int))) (some 2) = some 2
          rw [show pyOr (some 0) (some (c : Int)) = some (c : Int) from rfl]
          show pyOr (some (c : Int)) (some 2) = some 2
          rw [pyOr, if_pos hc]
        rw [this] at hk
        have h2 : (2 : Int) = k := Option.some.inj hk
        omega
      · have : resolvePrimeWorkers (some 0) (some c) = some (c : Int) := by
          show pyOr (pyOr (some 0) (some (c : Int))) (some 2) = some (c : Int)
          rw [show pyOr (some 0) (some (c : Int)) = some (c : Int) from rfl]
          show pyOr (some (c : Int)) (some 2) = some (c : Int)
          rw [pyOr, if_neg hc]
        rw [this] at hk
        have hck : (c : Int) = k := Option.some.inj hk
        omega
  · intro c hc hc1 k hk
    subst hc
    have : some ((c : Nat) : Int) = some k := hk
    have hck : ((c : Nat) : Int) = k := Option.some.inj this
    omega

theorem zero_workers_get_default_witness :
    resolveProcessWorkers (some 0) (some 8) = resolveProcessWorkers none (some 8) ∧
    resolvePrimeWorkers (some 0) (some 8) = resolvePrimeWorkers none (some 8) ∧
    (8 : Int) ≠ 0 ∧ (1 : Int) ≤ 8 := by
  have h := zero_workers_get_default (some 8)
  refine ⟨h.1, h.2.1, ?_, ?_⟩
  · exact h.2.2.1 8 rfl
  · exact h.2.2.2 8 rfl (by decide) 8 rfl

end PMNEC
